import Mathlib

/-!
Shallow embedding of `src/main.rs` of `rust_chatbot`, a rule-driven
conversational responder, together with proofs about its core
operations: input normalisation, rule matching, response rendering,
session update and rule reloading.

Strings are modelled as `List Char`: Rust `String`/`&str` hold valid
UTF-8, and UTF-8 is self-synchronising, so byte-level substring search
(`str::contains`) agrees with character-level search.  Rust's
`str::to_lowercase` and `char::is_whitespace` are modelled by the
ASCII case map `Char.toLower` and by `Char.isWhitespace`, exact on the
ASCII range, which covers every character the program's own rules and
tests use.  File reading (`fs::read_to_string`) and JSON decoding
(`serde_json::from_str`) are opaque collaborators and appear as
function-valued parameters; the clock (`chrono::Local::now()` formatted
with `"%I:%M %p"`) appears as the already-formatted time string `now`.
-/

namespace RustChatbot

/-- The characters of a string literal. -/
def str (s : String) : List Char := s.data

/-- The apostrophe character (U+0027). -/
def apostrophe : Char := Char.ofNat 39

/-- A single rule: `struct Rule` (main.rs lines 10–15). -/
structure Rule where
  intent : List Char
  patterns : List (List Char)
  responses : List (List Char)
deriving DecidableEq

/-- Per-user session state: `struct Session` (main.rs lines 18–24). -/
structure Session where
  user_id : List Char
  user_name : List Char
  last_intent : Option (List Char)
  conversation_history : List (List Char)
deriving DecidableEq

/-- `Session::new` (main.rs lines 28–35). -/
def Session.new (user_id user_name : List Char) : Session :=
  { user_id := user_id
    user_name := user_name
    last_intent := none
    conversation_history := [] }

/-- Whitespace trimming from both ends, as in Rust's `str::trim`:
drop leading whitespace, then drop trailing whitespace. -/
def trimChars (l : List Char) : List Char :=
  (l.dropWhile Char.isWhitespace).rdropWhile Char.isWhitespace

/-- `clean_input` (main.rs lines 157–159):
`input.to_lowercase().trim().to_string()` — lowercase the whole
string, then trim leading and trailing whitespace. -/
def clean_input (input : List Char) : List Char :=
  trimChars (input.map Char.toLower)

/-- Rust `str::contains` for a literal needle: some split of the
haystack starts with the needle.  Scans left to right. -/
def strContains : List Char → List Char → Bool
  | [], needle => needle.isEmpty
  | c :: t, needle => needle.isPrefixOf (c :: t) || strContains t needle

/-- The inner loop of `match_rule` (main.rs lines 173–177): does any
pattern of the rule, lowercased, occur inside the user input?
`user_input.contains(&pattern.to_lowercase())` with early return
on the first hit is `List.any`. -/
def rule_matches (user_input : List Char) (rule : Rule) : Bool :=
  rule.patterns.any fun pattern => strContains user_input (pattern.map Char.toLower)

/-- `match_rule` (main.rs lines 171–180): scan the rules in collection
order and return the first rule one of whose patterns matches; `None`
when the scan falls through. -/
def match_rule (user_input : List Char) : List Rule → Option Rule
  | [] => none
  | rule :: rest =>
    if rule_matches user_input rule then some rule
    else match_rule user_input rest

/-- Recursion worker for `replaceAll`.  The `fuel` argument only makes
the recursion structural: every step consumes at least one character
of `s`, so any `fuel ≥ s.length` gives the same result
(`replaceAllFuel_eq_replaceAll`) and the `fuel = 0` fallback is never
reached from `replaceAll`. -/
def replaceAllFuel (pat rep : List Char) : Nat → List Char → List Char
  | _, [] => []
  | 0, s => s
  | fuel + 1, c :: rest =>
    if pat ≠ [] ∧ pat.isPrefixOf (c :: rest) then
      rep ++ replaceAllFuel pat rep fuel ((c :: rest).drop pat.length)
    else
      c :: replaceAllFuel pat rep fuel rest

/-- Rust `str::replace(pat, rep)` for a non-empty literal pattern:
leftmost, non-overlapping replacement in a single left-to-right pass
over the input — the produced `rep` text is never re-scanned.  The
program only ever replaces the non-empty literals `"{name}"` and
`"{time}"` (main.rs lines 194–195). -/
def replaceAll (pat rep s : List Char) : List Char :=
  replaceAllFuel pat rep s.length s

/-- `generate_response` (main.rs lines 192–197).  The Rust code indexes
`rule.responses[0]` unchecked; on an empty `responses` vector that
indexing panics, modelled here by `none`.  Otherwise it takes the first
response template, replaces `"{name}"` with the session's user name,
then replaces `"{time}"` in the resulting string with the formatted
current time `now`. -/
def generate_response (rule : Rule) (session : Session) (now : List Char) :
    Option (List Char) :=
  match rule.responses with
  | [] => none
  | r0 :: _ =>
    let response := r0
    let response := replaceAll (str "{name}") session.user_name response
    let response := replaceAll (str "{time}") now response
    some response

/-- The fixed fallback reply of main.rs line 107:
`"I'm sorry, I didn't understand that. Could you please rephrase?"`
(the apostrophes are spliced in as character U+0027). -/
def fallbackMessage : List Char :=
  str "I" ++ [apostrophe] ++ str "m sorry, I didn" ++ [apostrophe] ++
    str "t understand that. Could you please rephrase?"

/-- One conversational turn (main.rs lines 98–108), the `process_turn`
entry point of the spec: normalise the raw input, try to match a rule,
on a match record the rule's intent in the session and render the
response, otherwise return the fallback text.  The first component is
the reply (`none` models a rendering panic), the second the session
after the turn. -/
def process_turn (input_text : List Char) (session : Session)
    (rules : List Rule) (now : List Char) : Option (List Char) × Session :=
  let cleaned_input := clean_input input_text
  match match_rule cleaned_input rules with
  | some rule =>
    let session' := { session with last_intent := some rule.intent }
    (generate_response rule session' now, session')
  | none => (some fallbackMessage, session)

/-- Load errors of the spec's taxonomy: the file read failing
(`fs::read_to_string` error) and the JSON decode failing
(`serde_json::from_str` error). -/
inductive LoadError where
  | sourceUnavailable
  | malformedRules
deriving DecidableEq

/-- The opaque collaborators of rule loading: the file system read and
the JSON decoder, as used by `load_rules_from_json`. -/
structure LoadEnv where
  fsRead : List Char → Except LoadError (List Char)
  jsonParse : List Char → Except LoadError (List Rule)

/-- `load_rules_from_json` (main.rs lines 129–133): read the file into
a string, propagating a read error, then decode it into rules,
propagating a decode error. -/
def load_rules_from_json (env : LoadEnv) (file_path : List Char) :
    Except LoadError (List Rule) :=
  match env.fsRead file_path with
  | .error e => .error e
  | .ok data =>
    match env.jsonParse data with
    | .error e => .error e
    | .ok rules => .ok rules

/-- `reload_rules` (main.rs lines 144–146): re-invokes the load. -/
def reload_rules (env : LoadEnv) (rules_path : List Char) :
    Except LoadError (List Rule) :=
  load_rules_from_json env rules_path

/-- The `reload rules` branch of the main loop (main.rs lines 77–90):
on success the new collection replaces the old one, on failure the old
collection is kept and the error is surfaced. -/
def reload_command_step (env : LoadEnv) (rules_path : List Char)
    (rules : List Rule) : List Rule × Option LoadError :=
  match reload_rules env rules_path with
  | .ok new_rules => (new_rules, none)
  | .error e => (rules, some e)

/-! ## The fuel of `replaceAll` is an artifact

Any fuel at least the input's length computes the same list, so
`replaceAll` satisfies the recurrence the Rust `str::replace` loop
satisfies. -/

theorem replaceAllFuel_congr (pat rep : List Char) :
    ∀ (fuel₁ fuel₂ : Nat) (s : List Char), s.length ≤ fuel₁ → s.length ≤ fuel₂ →
      replaceAllFuel pat rep fuel₁ s = replaceAllFuel pat rep fuel₂ s := by
  intro fuel₁
  induction fuel₁ with
  | zero =>
    intro fuel₂ s hs₁ _
    have : s = [] := List.eq_nil_of_length_eq_zero (Nat.le_zero.mp hs₁)
    subst this
    cases fuel₂ <;> rfl
  | succ fuel₁ ih =>
    intro fuel₂ s hs₁ hs₂
    cases s with
    | nil => cases fuel₂ <;> rfl
    | cons c rest =>
      cases fuel₂ with
      | zero => simp at hs₂
      | succ fuel₂ =>
        simp only [replaceAllFuel]
        have hpat : pat ≠ [] → ((c :: rest).drop pat.length).length ≤ min fuel₁ fuel₂ := by
          intro h
          have h1 : 0 < pat.length := List.length_pos.mpr h
          simp only [List.length_drop, List.length_cons]
          simp only [List.length_cons] at hs₁ hs₂
          omega
        split_ifs with h
        · have hd := hpat h.1
          rw [ih fuel₂ _ (le_trans hd (min_le_left _ _)) (le_trans hd (min_le_right _ _))]
        · simp only [List.length_cons] at hs₁ hs₂
          rw [ih fuel₂ rest (by omega) (by omega)]

theorem replaceAll_nil (pat rep : List Char) : replaceAll pat rep [] = [] := rfl

theorem replaceAll_cons (pat rep : List Char) (c : Char) (rest : List Char) :
    replaceAll pat rep (c :: rest) =
      if pat ≠ [] ∧ pat.isPrefixOf (c :: rest) then
        rep ++ replaceAll pat rep ((c :: rest).drop pat.length)
      else
        c :: replaceAll pat rep rest := by
  show replaceAllFuel pat rep (c :: rest).length (c :: rest) = _
  simp only [List.length_cons, replaceAllFuel]
  split_ifs with h
  · have h1 : 0 < pat.length := List.length_pos.mpr h.1
    have h2 : ((c :: rest).drop pat.length).length ≤ rest.length := by
      simp only [List.length_drop, List.length_cons]
      omega
    congr 1
    exact replaceAllFuel_congr pat rep rest.length _ _ h2 le_rfl
  · rfl

/-! ## Normalisation lemmas -/

theorem toLower_toNat_of_upper {n : Nat} (h : 65 ≤ n ∧ n ≤ 90) :
    (Char.ofNat (n + 32)).toNat = n + 32 := by
  have hv : (n + 32).isValidChar := Or.inl (by omega)
  rw [Char.ofNat, dif_pos hv]
  rfl

theorem toLower_toLower (c : Char) : c.toLower.toLower = c.toLower := by
  show Char.toLower (Char.toLower c) = Char.toLower c
  unfold Char.toLower
  by_cases h : c.toNat ≥ 65 ∧ c.toNat ≤ 90
  · rw [if_pos h]
    have h2 : ¬((Char.ofNat (c.toNat + 32)).toNat ≥ 65 ∧
        (Char.ofNat (c.toNat + 32)).toNat ≤ 90) := by
      rw [toLower_toNat_of_upper h]
      omega
    rw [if_neg h2]
  · rw [if_neg h, if_neg h]

theorem map_toLower_fix {l : List Char} (h : ∀ c ∈ l, c.toLower = c) :
    l.map Char.toLower = l :=
  (List.map_congr_left h).trans (List.map_id l)

theorem trimChars_dropWhile (l : List Char) :
    (trimChars l).dropWhile Char.isWhitespace = trimChars l := by
  cases hr : trimChars l with
  | nil => rfl
  | cons a u =>
    have hpre : trimChars l <+: l.dropWhile Char.isWhitespace :=
      List.rdropWhile_prefix _ _
    rw [hr] at hpre
    obtain ⟨t, ht⟩ := hpre
    have hid := List.dropWhile_idempotent Char.isWhitespace l
    rw [← ht] at hid
    have hwa : Char.isWhitespace a = false := by
      cases hh : Char.isWhitespace a with
      | false => rfl
      | true =>
        rw [List.cons_append, List.dropWhile_cons_of_pos hh] at hid
        have hlen := congrArg List.length hid
        have hle : ((u ++ t).dropWhile Char.isWhitespace).length ≤ (u ++ t).length :=
          (List.dropWhile_suffix _).sublist.length_le
        simp only [List.length_cons] at hlen
        omega
    exact List.dropWhile_cons_of_neg (by simp [hwa])

theorem trimChars_idem (l : List Char) : trimChars (trimChars l) = trimChars l := by
  show ((trimChars l).dropWhile Char.isWhitespace).rdropWhile Char.isWhitespace = trimChars l
  rw [trimChars_dropWhile l]
  exact List.rdropWhile_idempotent _ _

theorem trimChars_subset (l : List Char) : trimChars l ⊆ l := by
  intro x hx
  simp only [trimChars, List.rdropWhile, List.mem_reverse] at hx
  have h1 : x ∈ (l.dropWhile Char.isWhitespace).reverse :=
    (List.dropWhile_suffix _).subset hx
  rw [List.mem_reverse] at h1
  exact (List.dropWhile_suffix _).subset h1

theorem clean_input_idem (s : List Char) :
    clean_input (clean_input s) = clean_input s := by
  show trimChars ((trimChars (s.map Char.toLower)).map Char.toLower) = _
  have h1 : (trimChars (s.map Char.toLower)).map Char.toLower =
      trimChars (s.map Char.toLower) := by
    apply map_toLower_fix
    intro c hc
    obtain ⟨y, _, rfl⟩ := List.mem_map.mp (trimChars_subset _ hc)
    exact toLower_toLower y
  rw [h1, trimChars_idem]
  rfl

/-! ## Substring lemmas -/

theorem isPrefixOf_iff_exists (l₁ l₂ : List Char) :
    l₁.isPrefixOf l₂ = true ↔ ∃ t, l₁ ++ t = l₂ := by
  induction l₁ generalizing l₂ with
  | nil => simp
  | cons a as ih =>
    cases l₂ with
    | nil => simp [List.isPrefixOf]
    | cons b bs =>
      simp only [List.isPrefixOf, Bool.and_eq_true, beq_iff_eq, ih, List.cons_append,
        List.cons.injEq]
      constructor
      · rintro ⟨rfl, t, rfl⟩
        exact ⟨t, rfl, rfl⟩
      · rintro ⟨t, rfl, rfl⟩
        exact ⟨rfl, t, rfl⟩

theorem strContains_iff (hay needle : List Char) :
    strContains hay needle = true ↔ ∃ pre post, pre ++ needle ++ post = hay := by
  induction hay with
  | nil =>
    simp only [strContains, List.isEmpty_iff]
    constructor
    · rintro rfl
      exact ⟨[], [], rfl⟩
    · rintro ⟨pre, post, h⟩
      exact (List.append_eq_nil.mp (List.append_eq_nil.mp h).1).2
  | cons c t ih =>
    simp only [strContains, Bool.or_eq_true, isPrefixOf_iff_exists, ih]
    constructor
    · rintro (⟨u, hu⟩ | ⟨pre, post, h⟩)
      · exact ⟨[], u, by simpa using hu⟩
      · exact ⟨c :: pre, post, by simp [h]⟩
    · rintro ⟨pre, post, h⟩
      cases pre with
      | nil =>
        left
        exact ⟨post, by simpa using h⟩
      | cons x xs =>
        right
        rw [List.cons_append, List.cons_append, List.cons.injEq] at h
        exact ⟨xs, post, by simp [h.2]⟩

theorem strContains_nil_needle (hay : List Char) : strContains hay [] = true := by
  cases hay <;> rfl

/-! ## Matcher lemmas -/

theorem rule_matches_iff (input : List Char) (rule : Rule) :
    rule_matches input rule = true ↔
      ∃ pat ∈ rule.patterns, ∃ pre post,
        pre ++ pat.map Char.toLower ++ post = input := by
  simp only [rule_matches, List.any_eq_true, strContains_iff]

theorem match_rule_append_first (input : List Char) (xs : List Rule) (r : Rule)
    (ys : List Rule) (hxs : ∀ x ∈ xs, rule_matches input x = false)
    (hr : rule_matches input r = true) :
    match_rule input (xs ++ r :: ys) = some r := by
  induction xs with
  | nil => simp [match_rule, hr]
  | cons x xs ih =>
    have hx := hxs x (List.mem_cons_self x xs)
    simp only [List.cons_append, match_rule, hx, Bool.false_eq_true, if_false]
    exact ih fun y hy => hxs y (List.mem_cons_of_mem x hy)

/-! ## The claims -/

/-- C1: the claim says a matched rule with an empty `responses` list is
signalled as an `EmptyTemplate` condition and the turn degrades to the
fallback text without crashing.  The code instead indexes
`rule.responses[0]` unchecked, so such a turn panics: at the input
below the reply is `none` (the model of the index panic), not the
fallback message. -/
theorem c1_empty_responses_panics :
    process_turn (str "hello") (Session.new (str "user123") (str "User"))
        [⟨str "greet", [str "hello"], []⟩] (str "03:07 PM") =
      (none,
        { user_id := str "user123", user_name := str "User",
          last_intent := some (str "greet"), conversation_history := [] }) := by
  decide

/-- C2 counterexample: with `user_name` equal to the literal text
`"{time}"`, the rendered output expands that text to the time value —
it does not appear verbatim, contrary to the claim. -/
theorem c2_resubstitution_counterexample :
    generate_response ⟨str "greet", [str "hello"], [str "Hi, {name}!"]⟩
        ⟨str "user123", str "{time}", none, []⟩ (str "03:07 PM") =
      some (str "Hi, 03:07 PM!") ∧
    strContains (str "Hi, 03:07 PM!") (str "{time}") = false := by
  decide

/-- C2 (amended): rendering substitutes `{name}` first and `{time}`
second, and the `{time}` pass runs over the output of the `{name}`
pass; consequently `{time}` text contained in `session.user_name` is
expanded rather than left verbatim. -/
theorem c2_substitution_order (intent : List Char) (patterns : List (List Char))
    (r0 : List Char) (rest : List (List Char)) (session : Session)
    (now : List Char) :
    generate_response ⟨intent, patterns, r0 :: rest⟩ session now =
      some (replaceAll (str "{time}") now
        (replaceAll (str "{name}") session.user_name r0)) := rfl

/-- C3: when a reload fails, the `reload rules` step leaves the
previously active rule collection unchanged and surfaces the error;
`reload_rules` is a function of the source alone and does not touch
the active rules. -/
theorem c3_reload_atomic (env : LoadEnv) (rules_path : List Char)
    (rules : List Rule) (e : LoadError)
    (h : reload_rules env rules_path = .error e) :
    reload_command_step env rules_path rules = (rules, some e) := by
  simp only [reload_command_step, h]

/-- Witness for C3: an unreadable source keeps the old rules. -/
theorem c3_reload_atomic_witness :
    reload_command_step
        ⟨fun _ => .error .sourceUnavailable, fun _ => .ok []⟩
        (str "rules_with_patterns.json")
        [⟨str "greet", [str "hello"], [str "Hello!"]⟩] =
      ([⟨str "greet", [str "hello"], [str "Hello!"]⟩], some .sourceUnavailable) :=
  c3_reload_atomic _ _ _ _ rfl

/-- C4: first-match-wins — if no rule before `r` matches the input and
`r` does, the matcher returns `r` whatever follows it; in particular
when a later rule also has a matching pattern, the earlier rule is
returned. -/
theorem c4_first_match_wins (input : List Char) (xs : List Rule) (r : Rule)
    (ys : List Rule) (hxs : ∀ x ∈ xs, rule_matches input x = false)
    (hr : rule_matches input r = true) :
    match_rule input (xs ++ r :: ys) = some r :=
  match_rule_append_first input xs r ys hxs hr

/-- Witness for C4: `"hi there"` matches both the `greet` rule and the
later `identity` rule; the earlier `greet` wins. -/
theorem c4_first_match_wins_witness :
    match_rule (str "hi there")
        ([⟨str "farewell", [str "bye", str "goodbye"], [str "Goodbye, {name}!"]⟩] ++
          ⟨str "greet", [str "hello", str "hi"], [str "Hello, {name}!"]⟩ ::
            [⟨str "identity", [str "there"], [str "I am a bot."]⟩]) =
      some ⟨str "greet", [str "hello", str "hi"], [str "Hello, {name}!"]⟩ :=
  c4_first_match_wins (str "hi there") _ _ _ (by decide) (by decide)

/-- C5: match soundness — the matcher either returns a rule of the
collection one of whose lowercased patterns occurs inside the input,
or returns `none` and no lowercased pattern of any rule occurs in the
input (so it returns `none` whenever nothing matches, including on the
empty collection). -/
theorem c5_match_sound (input : List Char) (rules : List Rule) :
    (∃ r, match_rule input rules = some r ∧ r ∈ rules ∧
      ∃ pat ∈ r.patterns, ∃ pre post,
        pre ++ pat.map Char.toLower ++ post = input) ∨
    (match_rule input rules = none ∧
      ∀ r ∈ rules, ∀ pat ∈ r.patterns, ∀ pre post,
        pre ++ pat.map Char.toLower ++ post ≠ input) := by
  induction rules with
  | nil =>
    right
    exact ⟨rfl, by simp⟩
  | cons r rest ih =>
    cases hr : rule_matches input r with
    | true =>
      left
      obtain ⟨pat, hmem, pre, post, h⟩ := (rule_matches_iff input r).mp hr
      exact ⟨r, by simp [match_rule, hr], List.mem_cons_self r rest,
        pat, hmem, pre, post, h⟩
    | false =>
      have hstep : match_rule input (r :: rest) = match_rule input rest := by
        simp [match_rule, hr]
      rcases ih with ⟨r', heq, hmem, hp⟩ | ⟨hnone, hall⟩
      · left
        exact ⟨r', hstep.trans heq, List.mem_cons_of_mem r hmem, hp⟩
      · right
        refine ⟨hstep.trans hnone, ?_⟩
        intro r' hr' pat hpat pre post hcontra
        rcases List.mem_cons.mp hr' with rfl | hr''
        · have hmt : rule_matches input r' = true :=
            (rule_matches_iff input r').mpr ⟨pat, hpat, pre, post, hcontra⟩
          rw [hr] at hmt
          exact Bool.false_ne_true hmt
        · exact hall r' hr'' pat hpat pre post hcontra

/-- C6: any turn whose normalised input matches no rule — in particular
every turn against the empty collection — replies with exactly the
fixed fallback text and does not crash. -/
theorem c6_fallback (input : List Char) (session : Session) (rules : List Rule)
    (now : List Char)
    (h : match_rule (clean_input input) rules = none ∨ rules = []) :
    (process_turn input session rules now).1 = some fallbackMessage := by
  have hnone : match_rule (clean_input input) rules = none := by
    rcases h with h | rfl
    · exact h
    · rfl
  simp only [process_turn, hnone]

/-- Witness for C6: `"unknown command"` matches no pattern of the
`greet` rule and yields the fallback text. -/
theorem c6_fallback_witness :
    (process_turn (str "unknown command") (Session.new (str "user123") (str "User"))
        [⟨str "greet", [str "hello", str "hi"], [str "Hello, {name}!"]⟩]
        (str "03:07 PM")).1 = some fallbackMessage :=
  c6_fallback _ _ _ _ (Or.inl (by decide))

/-- C7: normalisation is idempotent, and normalising
`"  Hello World!  "` yields `"hello world!"`. -/
theorem c7_normalize_idem (s : List Char) :
    clean_input (clean_input s) = clean_input s ∧
    clean_input (str "  Hello World!  ") = str "hello world!" :=
  ⟨clean_input_idem s, by decide⟩

/-- C8: rendering always starts from `responses[0]`: the output is
unchanged by whatever later variants are present, and equals the first
variant with `{name}` and then `{time}` substituted. -/
theorem c8_first_variant (intent : List Char) (patterns : List (List Char))
    (r0 : List Char) (rest rest' : List (List Char)) (session : Session)
    (now : List Char) :
    generate_response ⟨intent, patterns, r0 :: rest⟩ session now =
      generate_response ⟨intent, patterns, r0 :: rest'⟩ session now ∧
    generate_response ⟨intent, patterns, r0 :: rest⟩ session now =
      some (replaceAll (str "{time}") now
        (replaceAll (str "{name}") session.user_name r0)) :=
  ⟨rfl, rfl⟩

/-- C9: a rule whose patterns contain the empty string matches every
input: when no earlier rule matches, the matcher returns that rule,
and in particular never returns `none`. -/
theorem c9_empty_pattern_matches_all (input : List Char) (xs : List Rule)
    (r : Rule) (ys : List Rule) (hpat : [] ∈ r.patterns)
    (hxs : ∀ x ∈ xs, rule_matches input x = false) :
    match_rule input (xs ++ r :: ys) = some r ∧
    match_rule input (xs ++ r :: ys) ≠ none := by
  have hr : rule_matches input r = true := by
    simp only [rule_matches, List.any_eq_true]
    refine ⟨[], hpat, ?_⟩
    simpa using strContains_nil_needle input
  have h := match_rule_append_first input xs r ys hxs hr
  exact ⟨h, by rw [h]; exact fun hcon => Option.noConfusion hcon⟩

/-- Witness for C9: the `catchall` rule with an empty pattern matches
the otherwise unmatched input `"xyzzy"`. -/
theorem c9_empty_pattern_matches_all_witness :
    match_rule (str "xyzzy")
        ([⟨str "farewell", [str "bye"], [str "Goodbye!"]⟩] ++
          ⟨str "catchall", [str ""], [str "Tell me more."]⟩ :: []) =
      some ⟨str "catchall", [str ""], [str "Tell me more."]⟩ ∧
    match_rule (str "xyzzy")
        ([⟨str "farewell", [str "bye"], [str "Goodbye!"]⟩] ++
          ⟨str "catchall", [str ""], [str "Tell me more."]⟩ :: []) ≠ none :=
  c9_empty_pattern_matches_all _ _ _ _ (by decide) (by decide)

/-- C10: a turn never changes `user_id`, `user_name` or
`conversation_history`; the session after the turn is the old session
with `last_intent` overwritten to the matched rule's intent exactly
when a rule matched, and is untouched on a non-matching turn. -/
theorem c10_session_frame (input : List Char) (session : Session)
    (rules : List Rule) (now : List Char) :
    ((process_turn input session rules now).2.user_id = session.user_id ∧
      (process_turn input session rules now).2.user_name = session.user_name ∧
      (process_turn input session rules now).2.conversation_history =
        session.conversation_history) ∧
    (process_turn input session rules now).2 =
      (match match_rule (clean_input input) rules with
        | none => session
        | some r => { session with last_intent := some r.intent }) := by
  cases h : match_rule (clean_input input) rules <;> simp [process_turn, h]

end RustChatbot
